import Mathlib

/-!
Verification of the parsing/classification core of the linux-security-audit-tool
repository: a shallow embedding in Lean 4 of `src/utils/lynis_parser.py`
(class `LynisParser`) and `src/utils/severity_classifier.py`
(class `SeverityClassifier`), together with theorems settling the frozen
claims about them.

Modelling conventions:
* Python strings are modelled as `List Char` (wrapped in `String` at API
  boundaries).  Python's `\s` character class, `str.strip()`, `str.lower()`
  and `\d` are modelled over their ASCII behaviour (`Char.toLower` lowers
  only ASCII letters); the source is only ever run on ASCII tool output.
* Each `re` pattern used by the source is compiled by hand into a
  deterministic scanner that reproduces the Python backtracking engine's
  leftmost-match semantics for that concrete pattern (greedy classes
  followed by characters outside the class need no backtracking; the lazy
  groups and optional groups are expanded into the engine's try order).
* `re.sub`/`re.search`/`re.finditer` scan start positions left to right;
  `finditer` resumes after the end of each (always non-empty) match.
-/

namespace Audit

/-- Python's `\s` class (ASCII portion): space, tab, newline, carriage
return, vertical tab, form feed. -/
def isWsC (c : Char) : Bool :=
  c = ' ' || c = '\t' || c = '\n' || c = '\r' || c = '\x0b' || c = '\x0c'

/-- ASCII decimal digit, Python's `\d` on the inputs of interest. -/
def isDigitC (c : Char) : Bool := c.isDigit

/-- Uppercase ASCII letter, the class `[A-Z]`. -/
def isUpperAZ (c : Char) : Bool := 'A' ≤ c && c ≤ 'Z'

/-- Python `str.strip()`: remove leading and trailing whitespace. -/
def pyStrip (cs : List Char) : List Char :=
  ((cs.dropWhile isWsC).reverse.dropWhile isWsC).reverse

/-- Numeric value of a digit string, as computed by Python `int()` on a
string matched by `\d+`. -/
def digitsVal (ds : List Char) : Nat :=
  ds.foldl (fun a c => 10 * a + (c.toNat - 48)) 0

/-- Python `int(s)` restricted to the shapes this program feeds it: it
succeeds exactly on non-empty all-digit strings (every call site passes a
`\d+` capture) and raises `ValueError` otherwise.  (Real `int()` accepts a
few more shapes - signs, surrounding blanks - so every `.error` of this
model is at least as defined as CPython; the model never succeeds where
CPython raises.) -/
def pyInt (ds : List Char) : Except String Nat :=
  if ds ≠ [] ∧ ds.all isDigitC then .ok (digitsVal ds)
  else .error "invalid literal for int()"

/-- Case-sensitive literal match at the start of the text; returns the
remainder after the literal. -/
def dropLit : List Char → List Char → Option (List Char)
  | [], cs => some cs
  | _ :: _, [] => none
  | p :: ps, c :: cs => if c = p then dropLit ps cs else none

/-- Case-insensitive literal match at the start of the text (the pattern is
given lower-case); returns the remainder after the literal. -/
def dropLitCI : List Char → List Char → Option (List Char)
  | [], cs => some cs
  | _ :: _, [] => none
  | p :: ps, c :: cs => if c.toLower = p then dropLitCI ps cs else none

/-- Source `re.search`-style position scan: try the hand-compiled matcher at every
start position, left to right, and return its first success. -/
def scanOption (tryAt : List Char → Option α) : List Char → Option α
  | [] => tryAt []
  | c :: r =>
    match tryAt (c :: r) with
    | some a => some a
    | none => scanOption tryAt r

/-- Substring containment, Python's `needle in hay`. -/
def containsSub (needle hay : List Char) : Bool :=
  (scanOption (fun cs => if (dropLit needle cs).isSome then some () else none) hay).isSome

/-- Source `str.split('\n')` on character lists (keeps empty pieces). -/
def splitLines : List Char → List (List Char)
  | [] => [[]]
  | '\n' :: r => [] :: splitLines r
  | c :: r =>
    match splitLines r with
    | [] => [[c]]
    | h :: t => (c :: h) :: t

/-- Join lines with `'\n'` separators (left inverse of `splitLines`). -/
def joinLines : List (List Char) → List Char
  | [] => []
  | [l] => l
  | l :: ls => l ++ '\n' :: joinLines ls

/-! ### `LynisParser.strip_ansi_codes`

The compiled pattern is `\x1b\[[0-9;]*m`.  Since `m` is not in the class
`[0-9;]`, matching at a position is deterministic: `ESC`, `[`, a maximal
run of digits/semicolons, then `m`. -/

/-- Parameter tail of the ANSI pattern: `[0-9;]*m`.  Returns the remainder
after the closing `m`. -/
def ansiParams : List Char → Option (List Char)
  | [] => none
  | c :: rest =>
    if c = 'm' then some rest
    else if c.isDigit || c = ';' then ansiParams rest
    else none

/-- Full ANSI pattern `\x1b\[[0-9;]*m` anchored at the start of the text;
returns the remainder after the match. -/
def ansiMatch : List Char → Option (List Char)
  | c1 :: c2 :: rest => if c1 = '\x1b' && c2 = '[' then ansiParams rest else none
  | _ => none

theorem ansiParams_length {l r : List Char} (h : ansiParams l = some r) :
    r.length < l.length := by
  induction l with
  | nil => simp [ansiParams] at h
  | cons c rest ih =>
    simp only [ansiParams] at h
    split at h
    · cases h; simp
    · split at h
      · exact Nat.lt_trans (ih h) (by simp)
      · cases h

theorem ansiMatch_length {l r : List Char} (h : ansiMatch l = some r) :
    r.length < l.length := by
  match l with
  | [] => simp [ansiMatch] at h
  | [c] => simp [ansiMatch] at h
  | c1 :: c2 :: rest =>
    simp only [ansiMatch] at h
    split at h
    · have := ansiParams_length h
      simp only [List.length_cons]
      omega
    · cases h

/-- Source `LynisParser.strip_ansi_codes`: `re.sub` of the ANSI pattern with the
empty replacement — remove every non-overlapping match, scanning left to
right. -/
def stripAnsi (cs : List Char) : List Char :=
  match cs with
  | [] => []
  | c :: rest =>
    match h : ansiMatch (c :: rest) with
    | some r => stripAnsi r
    | none => c :: stripAnsi rest
termination_by cs.length
decreasing_by
  · exact ansiMatch_length h
  · simp

/-- Source `LynisParser.strip_ansi_codes` lifted to `String`. -/
def strip_ansi_codes (s : String) : String := ⟨stripAnsi s.data⟩

/-- A text is ANSI-well-formed when every occurrence of the escape
character `\x1b` begins a complete match of the ANSI pattern.  (All real
terminal output satisfies this; the interesting inputs that do not are the
ones on which a single substitution pass can splice a fresh escape
sequence together.) -/
def ansiWellFormed (cs : List Char) : Bool :=
  match cs with
  | [] => true
  | c :: rest =>
    match h : ansiMatch (c :: rest) with
    | some r => ansiWellFormed r
    | none => if c = '\x1b' then false else ansiWellFormed rest
termination_by cs.length
decreasing_by
  · exact ansiMatch_length h
  · simp

theorem ansiMatch_none_of_head {c : Char} (rest : List Char) (h : c ≠ '\x1b') :
    ansiMatch (c :: rest) = none := by
  cases rest <;> simp [ansiMatch, h]

theorem stripAnsi_cons_none {c : Char} {rest : List Char}
    (h : ansiMatch (c :: rest) = none) :
    stripAnsi (c :: rest) = c :: stripAnsi rest := by
  conv_lhs => rw [stripAnsi]
  split
  · rename_i r heq
    rw [h] at heq; cases heq
  · rfl

theorem stripAnsi_cons_some {c : Char} {rest r : List Char}
    (h : ansiMatch (c :: rest) = some r) :
    stripAnsi (c :: rest) = stripAnsi r := by
  conv_lhs => rw [stripAnsi]
  split
  · rename_i r' heq
    rw [h] at heq
    cases heq
    rfl
  · rename_i heq
    rw [h] at heq; cases heq

theorem ansiWellFormed_cons_some {c : Char} {rest r : List Char}
    (h : ansiMatch (c :: rest) = some r) :
    ansiWellFormed (c :: rest) = ansiWellFormed r := by
  conv_lhs => rw [ansiWellFormed]
  split
  · rename_i r' heq
    rw [h] at heq
    cases heq
    rfl
  · rename_i heq
    rw [h] at heq; cases heq

theorem ansiWellFormed_cons_none {c : Char} {rest : List Char}
    (h : ansiMatch (c :: rest) = none) :
    ansiWellFormed (c :: rest) = if c = '\x1b' then false else ansiWellFormed rest := by
  conv_lhs => rw [ansiWellFormed]
  split
  · rename_i r' heq
    rw [h] at heq; cases heq
  · rfl

/-- On escape-free text the substitution is the identity. -/
theorem stripAnsi_of_no_esc : ∀ cs : List Char, '\x1b' ∉ cs → stripAnsi cs = cs := by
  intro cs
  induction cs with
  | nil => intro _; rw [stripAnsi]
  | cons c rest ih =>
    intro h
    have hc : c ≠ '\x1b' := fun hc => h (hc ▸ List.mem_cons_self c rest)
    rw [stripAnsi_cons_none (ansiMatch_none_of_head rest hc)]
    rw [ih (fun hm => h (List.mem_cons_of_mem c hm))]

/-- Stripping a well-formed text leaves no escape character behind. -/
theorem stripAnsi_wf_no_esc :
    ∀ (n : Nat) (cs : List Char), cs.length ≤ n → ansiWellFormed cs = true →
      '\x1b' ∉ stripAnsi cs := by
  intro n
  induction n with
  | zero =>
    intro cs hlen _
    have : cs = [] := List.length_eq_zero.mp (Nat.le_zero.mp hlen)
    subst this
    rw [stripAnsi]
    simp
  | succ n ih =>
    intro cs hlen hwf
    match cs with
    | [] =>
      rw [stripAnsi]; simp
    | c :: rest =>
      cases hm : ansiMatch (c :: rest) with
      | some r =>
        rw [stripAnsi_cons_some hm]
        have h1 := ansiMatch_length hm
        simp only [List.length_cons] at hlen h1
        have hr : r.length ≤ n := by omega
        apply ih r hr
        rw [ansiWellFormed_cons_some hm] at hwf
        exact hwf
      | none =>
        rw [stripAnsi_cons_none hm]
        rw [ansiWellFormed_cons_none hm] at hwf
        have hc : c ≠ '\x1b' := by
          intro hc
          simp [hc] at hwf
        have hwr : ansiWellFormed rest = true := by
          simpa [hc] using hwf
        intro hmem
        rcases List.mem_cons.mp hmem with h1 | h2
        · exact hc h1.symm
        · have hr : rest.length ≤ n := by
            simp only [List.length_cons] at hlen; omega
          exact ih rest hr hwr h2

/-! ### Claim C2 — idempotence of `strip_ansi_codes` -/

/-- C2 (counterexample): a single substitution pass is *not* idempotent on
all inputs.  In `"\x1b\x1b[0m[0m"` the only match is the middle
`"\x1b[0m"`; removing it splices the leading `"\x1b"` onto the trailing
`"[0m"`, reassembling a fresh escape sequence that a second pass removes:
the first pass returns `"\x1b[0m"`, the second returns `""`. -/
theorem c2_strip_idempotent_counterexample :
    strip_ansi_codes (strip_ansi_codes "\x1b\x1b[0m[0m") ≠
      strip_ansi_codes "\x1b\x1b[0m[0m" := by
  simp [strip_ansi_codes, stripAnsi, ansiMatch, ansiParams]

/-- C2 (amended): `strip_ansi_codes` is idempotent on every input in which
each occurrence of the escape character `\x1b` begins a complete ANSI
colour sequence (in particular on every escape-free input); only inputs
whose stripping reassembles a new escape sequence can strip further on a
second pass. -/
theorem c2_strip_idempotent (s : String) (h : ansiWellFormed s.data = true) :
    strip_ansi_codes (strip_ansi_codes s) = strip_ansi_codes s := by
  show (⟨stripAnsi (stripAnsi s.data)⟩ : String) = ⟨stripAnsi s.data⟩
  rw [stripAnsi_of_no_esc (stripAnsi s.data)
      (stripAnsi_wf_no_esc s.data.length s.data le_rfl h)]

/-- C2 (witness). -/
theorem c2_strip_idempotent_witness :
    strip_ansi_codes (strip_ansi_codes "\x1b[1;31mWarning\x1b[0m done") =
      strip_ansi_codes "\x1b[1;31mWarning\x1b[0m done" :=
  c2_strip_idempotent "\x1b[1;31mWarning\x1b[0m done"
    (by simp [ansiWellFormed, ansiMatch, ansiParams])

/-! ### `SeverityClassifier` (`src/utils/severity_classifier.py`)

Findings are Python dicts; the classifier reads the keys `message`, `type`
and `test_id` (the last is fetched but never used) with `''` defaults, and
`classify_findings` copies each dict and adds `severity` /
`severity_level`.  We model a finding as a record of the four content
fields the claims mention, with the same defaults. -/

/-- A security finding (the fields of the dicts produced by the parser). -/
structure Finding where
  message : String := ""
  ftype : String := ""
  test_id : String := ""
  details : List String := []
deriving DecidableEq

/-- The `Severity` enum. -/
inductive Severity
  | critical
  | high
  | medium
  | low
  | info
deriving DecidableEq

/-- Source `Severity.value` of the Python enum. -/
def Severity.value : Severity → String
  | .critical => "critical"
  | .high => "high"
  | .medium => "medium"
  | .low => "low"
  | .info => "info"

/-- Python `str.lower()` (ASCII case folding). -/
def lowerStr (s : String) : String := ⟨s.data.map Char.toLower⟩

/-- Python `needle in hay` substring test. -/
def containsStr (hay needle : String) : Bool := containsSub needle.data hay.data

def CRITICAL_KEYWORDS : List String :=
  ["root password", "no password", "weak password", "default password",
   "remote root login", "ssh root login", "unpatched vulnerability",
   "critical vulnerability", "remote code execution", "rce",
   "privilege escalation", "compromised", "backdoor", "malware"]

def HIGH_KEYWORDS : List String :=
  ["firewall", "disabled", "not installed", "not running",
   "unencrypted", "weak cipher", "outdated", "deprecated",
   "world writable", "world readable", "permission 777",
   "selinux disabled", "apparmor disabled", "security module",
   "kernel parameter", "sysctl", "insecure protocol",
   "telnet", "ftp", "rsh", "no authentication"]

def MEDIUM_KEYWORDS : List String :=
  ["warning", "configuration", "update available", "upgrade",
   "missing", "not found", "permission", "ownership",
   "log file", "audit", "monitoring", "integrity",
   "certificate", "ssl", "tls", "encryption",
   "network service", "open port", "listening"]

def LOW_KEYWORDS : List String :=
  ["suggestion", "recommendation", "consider", "optional",
   "banner", "informational", "documentation", "optimization",
   "performance", "best practice"]

/-- The `for keyword in LIST: if keyword in message: return S` loops — every
iteration returns the same severity, so a loop is equivalent to an
existence test over its list. -/
def anyKeyword (kws : List String) (message : String) : Bool :=
  kws.any (fun k => containsStr message k)

/-- Source `re.search` of an `X$`-anchored literal (patterns `\.pem$`, `\.key$`).
Without `re.MULTILINE`, `$` matches at the end of the text or just before a
final newline. -/
def endsDollar (suffix hay : List Char) : Bool :=
  suffix.isSuffixOf hay || (suffix ++ ['\n']).isSuffixOf hay

/-- Scan the rest of the current line (`.*` does not cross `'\n'`) for the
literal `key` — the tail of the pattern `private.*key`. -/
def keyOnLine : List Char → Bool
  | [] => false
  | c :: r =>
    if (dropLit ['k', 'e', 'y'] (c :: r)).isSome then true
    else if c = '\n' then false
    else keyOnLine r

/-- Source `re.search(r'private.*key', m)`: some occurrence of `private` followed,
on the same line, by `key`. -/
def privateKeyPat (hay : List Char) : Bool :=
  (scanOption
    (fun cs =>
      match dropLit "private".data cs with
      | some rest => if keyOnLine rest then some () else none
      | none => none)
    hay).isSome

/-- Source `CRITICAL_FILE_PATTERNS` searched with `re.IGNORECASE`; the message is
already lower-cased and every pattern is lower-case, so case-insensitive
search coincides with plain search.  The source loops over the patterns
returning the same severity for each, hence the disjunction. -/
def critFilePat (m : String) : Bool :=
  containsStr m "/etc/shadow" || containsStr m "/etc/passwd" ||
  containsStr m "/root/.ssh" || endsDollar ".pem".data m.data ||
  endsDollar ".key".data m.data || privateKeyPat m.data

/-- Source `HIGH_FILE_PATTERNS` (all plain literals after unescaping). -/
def highFilePat (m : String) : Bool :=
  containsStr m "/etc/sudoers" || containsStr m "/etc/ssh/sshd_config" ||
  containsStr m "/etc/pam.d/" || containsStr m "/boot/" ||
  containsStr m ".authorized_keys"

/-- Source `SeverityClassifier.classify_finding`. -/
def classify_finding (f : Finding) : Severity :=
  let message := lowerStr f.message
  let ftype := lowerStr f.ftype
  if ftype == "warning" || containsStr message "warning" then
    if anyKeyword CRITICAL_KEYWORDS message then .critical
    else if anyKeyword HIGH_KEYWORDS message then .high
    else if critFilePat message then .critical
    else if highFilePat message then .high
    else .medium
  else if ftype == "suggestion" || containsStr message "suggest" then
    if anyKeyword CRITICAL_KEYWORDS message then .high
    else if anyKeyword HIGH_KEYWORDS message then .medium
    else .low
  else if anyKeyword CRITICAL_KEYWORDS message then .critical
  else if anyKeyword HIGH_KEYWORDS message then .high
  else if anyKeyword MEDIUM_KEYWORDS message then .medium
  else if anyKeyword LOW_KEYWORDS message then .low
  else .info

/-- Source `SeverityClassifier._severity_to_level` (the `.get(severity, 4)`
default is unreachable: the dict is total on the enum). -/
def severity_to_level : Severity → Nat
  | .critical => 0
  | .high => 1
  | .medium => 2
  | .low => 3
  | .info => 4

/-- A finding after `classify_findings` tagged it: `finding.copy()` plus
the `severity` and `severity_level` keys. -/
structure ClassifiedFinding where
  message : String
  ftype : String
  test_id : String
  details : List String
  severity : String
  severity_level : Nat
deriving DecidableEq

/-- The per-element body of the `classify_findings` loop. -/
def withSeverity (f : Finding) : ClassifiedFinding :=
  let s := classify_finding f
  ⟨f.message, f.ftype, f.test_id, f.details, s.value, severity_to_level s⟩

/-- Drop the severity tags again (projection back onto the copied input
fields). -/
def restrictFinding (c : ClassifiedFinding) : Finding :=
  ⟨c.message, c.ftype, c.test_id, c.details⟩

/-- The sort key `severity_order.get(x['severity'], 999)` used by
`classified.sort`. -/
def severityOrderKey (s : String) : Nat :=
  if s = "critical" then 0
  else if s = "high" then 1
  else if s = "medium" then 2
  else if s = "low" then 3
  else if s = "info" then 4
  else 999

/-- Comparison relation of the sort. -/
def keyLE (a b : ClassifiedFinding) : Prop :=
  severityOrderKey a.severity ≤ severityOrderKey b.severity

instance : DecidableRel keyLE := fun _ _ => Nat.decLe _ _

instance : IsTotal ClassifiedFinding keyLE := ⟨fun a b => Nat.le_total _ _⟩

instance : IsTrans ClassifiedFinding keyLE := ⟨fun _ _ _ => Nat.le_trans⟩

/-- Source `SeverityClassifier.classify_findings`: tag every finding in input
order, then `list.sort(key=...)`.  CPython's sort is stable; insertion
sort with a non-strict comparison and head-first recursion is its standard
extensionally-equal model (each element is inserted before the already
placed elements with an equal key, all of which came later in the input).
The method also increments `self.statistics`; that bookkeeping does not
influence the returned list and is not modelled. -/
def classify_findings (l : List Finding) : List ClassifiedFinding :=
  List.insertionSort keyLE (l.map withSeverity)

/-! ### Claim C1 — suggestion demotion -/

/-- The warning guard of `classify_finding` (tested before the suggestion
branch). -/
def warnGuard (f : Finding) : Bool :=
  lowerStr f.ftype == "warning" || containsStr (lowerStr f.message) "warning"

/-- C1 (counterexample): the claim says a type-`suggestion` finding whose
message contains a critical keyword classifies as `high` *for all message
contents*.  But the warning branch is tested first, and it fires on any
message containing the substring `"warning"`; there the critical keyword
`"backdoor"` yields `critical`, not `high`. -/
theorem c1_suggestion_demotion_counterexample :
    classify_finding ⟨"warning: backdoor found", "suggestion", "", []⟩ = Severity.critical ∧
      classify_finding ⟨"warning: backdoor found", "suggestion", "", []⟩ ≠ Severity.high := by
  decide

/-- C1 (amended): for every finding of type `suggestion` whose lower-cased
message contains a critical keyword *and does not contain the substring
`"warning"`* (so that the warning branch does not intercept it),
`classify_finding` returns `high` — never `critical`. -/
theorem c1_suggestion_demotion (f : Finding)
    (h1 : lowerStr f.ftype = "suggestion")
    (h2 : containsStr (lowerStr f.message) "warning" = false)
    (h3 : anyKeyword CRITICAL_KEYWORDS (lowerStr f.message) = true) :
    classify_finding f = Severity.high := by
  unfold classify_finding
  simp only [h1, h2, h3]
  simp

/-- C1 (witness). -/
theorem c1_suggestion_demotion_witness :
    classify_finding ⟨"default password found", "suggestion", "", []⟩ = Severity.high :=
  c1_suggestion_demotion ⟨"default password found", "suggestion", "", []⟩
    (by decide) (by decide) (by decide)

/-! ### Claim C8 — warnings classify to critical/high/medium -/

/-- C8: a finding whose (lower-cased) type is `warning`, or whose
(lower-cased) message contains `"warning"`, classifies to `critical`,
`high` or `medium` — never `low` or `info` — following the branch order:
critical keywords, then high keywords, then critical file patterns, then
high file patterns, else `medium`. -/
theorem c8_warning_floor (f : Finding) (h : warnGuard f = true) :
    (classify_finding f = Severity.critical ∨ classify_finding f = Severity.high ∨
      classify_finding f = Severity.medium)
    ∧ (anyKeyword CRITICAL_KEYWORDS (lowerStr f.message) = true →
        classify_finding f = Severity.critical)
    ∧ (anyKeyword CRITICAL_KEYWORDS (lowerStr f.message) = false →
        anyKeyword HIGH_KEYWORDS (lowerStr f.message) = true →
        classify_finding f = Severity.high)
    ∧ (anyKeyword CRITICAL_KEYWORDS (lowerStr f.message) = false →
        anyKeyword HIGH_KEYWORDS (lowerStr f.message) = false →
        critFilePat (lowerStr f.message) = true →
        classify_finding f = Severity.critical)
    ∧ (anyKeyword CRITICAL_KEYWORDS (lowerStr f.message) = false →
        anyKeyword HIGH_KEYWORDS (lowerStr f.message) = false →
        critFilePat (lowerStr f.message) = false →
        highFilePat (lowerStr f.message) = true →
        classify_finding f = Severity.high)
    ∧ (anyKeyword CRITICAL_KEYWORDS (lowerStr f.message) = false →
        anyKeyword HIGH_KEYWORDS (lowerStr f.message) = false →
        critFilePat (lowerStr f.message) = false →
        highFilePat (lowerStr f.message) = false →
        classify_finding f = Severity.medium) := by
  unfold warnGuard at h
  unfold classify_finding
  simp only [h, if_true]
  cases h1 : anyKeyword CRITICAL_KEYWORDS (lowerStr f.message) <;>
    cases h2 : anyKeyword HIGH_KEYWORDS (lowerStr f.message) <;>
      cases h3 : critFilePat (lowerStr f.message) <;>
        cases h4 : highFilePat (lowerStr f.message) <;>
          simp

/-- C8 (witness): a type-`warning` finding with the critical keyword
`"ssh root login"`. -/
theorem c8_warning_floor_witness :
    classify_finding ⟨"SSH root login enabled", "warning", "", []⟩ = Severity.critical :=
  (c8_warning_floor ⟨"SSH root login enabled", "warning", "", []⟩ (by decide)).2.1
    (by decide)

/-! ### Claims C3 and C10 — the stable sort of `classify_findings` -/

/-- On classifier output, the sort key computed from the severity string
coincides with the numeric `severity_level`. -/
theorem key_withSeverity (f : Finding) :
    severityOrderKey (withSeverity f).severity = (withSeverity f).severity_level := by
  cases h : classify_finding f <;>
    simp [withSeverity, h, Severity.value, severity_to_level, severityOrderKey]

/-- Inserting `x` commutes with filtering by any key value: `orderedInsert`
with a non-strict relation places `x` in front of the first element with a
key `≥` its own, so elements passed over have strictly smaller keys and the
relative order of equal keys is preserved. -/
theorem filter_orderedInsert (v : Nat) (x : ClassifiedFinding) :
    ∀ L : List ClassifiedFinding,
      (List.orderedInsert keyLE x L).filter (fun c => severityOrderKey c.severity == v) =
        if severityOrderKey x.severity = v then
          x :: L.filter (fun c => severityOrderKey c.severity == v)
        else L.filter (fun c => severityOrderKey c.severity == v) := by
  intro L
  induction L with
  | nil =>
    by_cases hx : severityOrderKey x.severity = v
    · simp [List.orderedInsert, List.filter, hx]
    · have hx' : (severityOrderKey x.severity == v) = false := by simpa using hx
      simp [List.orderedInsert, List.filter, hx, hx']
  | cons y ys ih =>
    by_cases hxy : keyLE x y
    · rw [List.orderedInsert_of_le keyLE ys hxy]
      by_cases hx : severityOrderKey x.severity = v <;>
        simp [List.filter_cons, hx]
    · have hstep : List.orderedInsert keyLE x (y :: ys) =
          y :: List.orderedInsert keyLE x ys := by
        simp [List.orderedInsert, hxy]
      rw [hstep]
      by_cases hx : severityOrderKey x.severity = v
      · have hy : ¬ severityOrderKey y.severity = v := by
          unfold keyLE at hxy
          omega
        simp [List.filter_cons, hx, hy, ih]
      · by_cases hy : severityOrderKey y.severity = v <;>
          simp [List.filter_cons, hx, hy, ih]

/-- Stability of the modelled sort: filtering the sorted list by any key
value gives the same sequence as filtering the input. -/
theorem filter_insertionSort (v : Nat) :
    ∀ l : List ClassifiedFinding,
      (List.insertionSort keyLE l).filter (fun c => severityOrderKey c.severity == v) =
        l.filter (fun c => severityOrderKey c.severity == v) := by
  intro l
  induction l with
  | nil => rfl
  | cons x xs ih =>
    simp only [List.insertionSort]
    rw [filter_orderedInsert]
    by_cases hx : severityOrderKey x.severity = v <;>
      simp [List.filter_cons, hx, ih]

theorem pairwise_level_of_sorted :
    ∀ l : List ClassifiedFinding, l.Pairwise keyLE →
      (∀ c ∈ l, severityOrderKey c.severity = c.severity_level) →
      l.Pairwise (fun a b => a.severity_level ≤ b.severity_level) := by
  intro l
  induction l with
  | nil => intro _ _; exact List.Pairwise.nil
  | cons a t ih =>
    intro hp he
    rcases List.pairwise_cons.mp hp with ⟨h1, h2⟩
    refine List.pairwise_cons.mpr
      ⟨?_, ih h2 (fun c hc => he c (List.mem_cons_of_mem a hc))⟩
    intro b hb
    have hk := h1 b hb
    unfold keyLE at hk
    rw [he a (List.mem_cons_self a t), he b (List.mem_cons_of_mem a hb)] at hk
    exact hk

/-- Every element of the classifier's output is the tagged copy of some
input finding. -/
theorem mem_classify_findings {l : List Finding} {c : ClassifiedFinding}
    (h : c ∈ classify_findings l) : ∃ f ∈ l, c = withSeverity f := by
  unfold classify_findings at h
  have h2 := (List.perm_insertionSort keyLE (l.map withSeverity)).mem_iff.mp h
  rcases List.mem_map.mp h2 with ⟨f, hf, hfe⟩
  exact ⟨f, hf, hfe.symm⟩

/-- C3: for every input list, the output of `classify_findings` has a
non-decreasing `severity_level` sequence, and — stability — for every
level `v` the subsequence of output elements with that level equals the
subsequence of (tagged) input elements with that level, in input order. -/
theorem c3_classify_findings_sorted_stable (l : List Finding) :
    (classify_findings l).Pairwise (fun a b => a.severity_level ≤ b.severity_level)
    ∧ ∀ v : Nat,
        (classify_findings l).filter (fun c => c.severity_level == v) =
          (l.map withSeverity).filter (fun c => c.severity_level == v) := by
  constructor
  · apply pairwise_level_of_sorted
    · exact List.sorted_insertionSort keyLE (l.map withSeverity)
    · intro c hc
      rcases mem_classify_findings hc with ⟨f, _, rfl⟩
      exact key_withSeverity f
  · intro v
    have e1 : (classify_findings l).filter (fun c => c.severity_level == v)
        = (classify_findings l).filter (fun c => severityOrderKey c.severity == v) := by
      apply List.filter_congr
      intro c hc
      rcases mem_classify_findings hc with ⟨f, _, rfl⟩
      rw [key_withSeverity f]
    have e2 : (l.map withSeverity).filter (fun c => c.severity_level == v)
        = (l.map withSeverity).filter (fun c => severityOrderKey c.severity == v) := by
      apply List.filter_congr
      intro c hc
      rcases List.mem_map.mp hc with ⟨f, _, rfl⟩
      rw [key_withSeverity f]
    rw [e1, e2]
    exact filter_insertionSort v (l.map withSeverity)

/-- C10: `classify_findings` returns a list of the same length as its
input, whose elements are (up to the sort permutation) exactly the input
findings with the two severity keys added: dropping those keys again gives
a permutation of the input, and every output element preserves the
`message`, `type`, `test_id` and `details` fields of the input element it
was copied from, with `severity`/`severity_level` computed by
`classify_finding`.  (The input list itself is immutable in this
embedding, as the copied-dict discipline guarantees in the source.) -/
theorem c10_classify_findings_preserves (l : List Finding) :
    (classify_findings l).length = l.length
    ∧ ((classify_findings l).map restrictFinding).Perm l
    ∧ ∀ c, c ∈ classify_findings l →
        restrictFinding c ∈ l
        ∧ c.severity = (classify_finding (restrictFinding c)).value
        ∧ c.severity_level = severity_to_level (classify_finding (restrictFinding c)) := by
  have hperm : (classify_findings l).Perm (l.map withSeverity) :=
    List.perm_insertionSort keyLE _
  have hback : ((l.map withSeverity).map restrictFinding) = l := by
    rw [List.map_map]
    have hcomp : restrictFinding ∘ withSeverity = id := funext fun f => rfl
    rw [hcomp, List.map_id]
  refine ⟨?_, ?_, ?_⟩
  · rw [hperm.length_eq, List.length_map]
  · have h3 := hperm.map restrictFinding
    rw [hback] at h3
    exact h3
  · intro c hc
    rcases mem_classify_findings hc with ⟨f, hf, rfl⟩
    exact ⟨hf, rfl, rfl⟩

/-- C10 (witness). -/
theorem c10_witness :
    (classify_findings [⟨"test", "warning", "", []⟩]).length = 1
    ∧ restrictFinding (withSeverity ⟨"test", "warning", "", []⟩) ∈
        [(⟨"test", "warning", "", []⟩ : Finding)] :=
  ⟨(c10_classify_findings_preserves [⟨"test", "warning", "", []⟩]).1,
   ((c10_classify_findings_preserves [⟨"test", "warning", "", []⟩]).2.2
      (withSeverity ⟨"test", "warning", "", []⟩) (by decide)).1⟩

/-! ### `LynisParser` (`src/utils/lynis_parser.py`)

Each `re` pattern of the parser is compiled to a scanner below; every
scanner was cross-checked against CPython `re` on the boundary cases
(colon backtracking, `\s*` crossing newlines, lazy captures closed by
look-aheads, `$` before a final newline, lazy section captures). -/

def MAX_SUGGESTION_DETAILS : Nat := 3
def MAX_WARNINGS_DISPLAY : Nat := 10
def MAX_SUGGESTIONS_DISPLAY : Nat := 20

/-- Source `(.+?)(?=\n|$)` at the current position: the (non-empty) run of
non-newline characters up to the end of the line; returns it and the
remainder (the match resumes after the capture — the look-ahead consumes
nothing). -/
def captureLine (cs : List Char) : Option (List Char × List Char) :=
  if (cs.takeWhile (fun c => c ≠ '\n')).isEmpty then none
  else some (cs.takeWhile (fun c => c ≠ '\n'),
             cs.drop (cs.takeWhile (fun c => c ≠ '\n')).length)

/-- Source `\s*(.+?)(?=\n|$)` at the current position: the greedy `\s*` (which may
cross newlines) backtracks until the lazy capture can take at least one
character. -/
def wsThenCapture : List Char → Option (List Char × List Char)
  | [] => none
  | c :: rest =>
    if isWsC c then
      match wsThenCapture rest with
      | some pr => some pr
      | none => captureLine (c :: rest)
    else captureLine (c :: rest)

theorem dropLit_length {p cs r : List Char} (h : dropLit p cs = some r) :
    r.length + p.length = cs.length := by
  induction p generalizing cs with
  | nil => cases h; simp
  | cons x xs ih =>
    match cs with
    | [] => cases h
    | c :: cs' =>
      simp only [dropLit] at h
      split at h
      · have := ih h
        simp only [List.length_cons]
        omega
      · cases h

theorem dropLitCI_length {p cs r : List Char} (h : dropLitCI p cs = some r) :
    r.length + p.length = cs.length := by
  induction p generalizing cs with
  | nil => cases h; simp
  | cons x xs ih =>
    match cs with
    | [] => cases h
    | c :: cs' =>
      simp only [dropLitCI] at h
      split at h
      · have := ih h
        simp only [List.length_cons]
        omega
      · cases h

theorem captureLine_length {cs cap rem : List Char}
    (h : captureLine cs = some (cap, rem)) : rem.length < cs.length := by
  unfold captureLine at h
  split at h
  · cases h
  · rename_i hne
    cases h
    have h1 : (cs.takeWhile (fun c => c ≠ '\n')).length ≤ cs.length :=
      (List.takeWhile_prefix _).length_le
    have h2 : 0 < (cs.takeWhile (fun c => c ≠ '\n')).length := by
      cases he : cs.takeWhile (fun c => c ≠ '\n') with
      | nil => rw [he] at hne; simp at hne
      | cons a l => simp [he]
    rw [List.length_drop]
    omega

theorem wsThenCapture_length {cs cap rem : List Char}
    (h : wsThenCapture cs = some (cap, rem)) : rem.length < cs.length := by
  induction cs with
  | nil => cases h
  | cons c rest ih =>
    simp only [wsThenCapture] at h
    split at h
    · cases hr : wsThenCapture rest with
      | some pr =>
        rw [hr] at h
        cases h
        have := ih (by rw [hr])
        simp only [List.length_cons]
        omega
      | none =>
        rw [hr] at h
        exact captureLine_length h
    · exact captureLine_length h

/-- Expect one given character and consume it. -/
def expectChar (c : Char) (cs : List Char) : Option (List Char) :=
  if cs.head? = some c then some cs.tail else none

/-- A greedy non-empty character-class run `[class]+`; returns the run and
the remainder. -/
def takeRun (p : Char → Bool) (cs : List Char) : Option (List Char × List Char) :=
  if (cs.takeWhile p).isEmpty then none
  else some (cs.takeWhile p, cs.drop (cs.takeWhile p).length)

theorem expectChar_length {c : Char} {cs r : List Char}
    (h : expectChar c cs = some r) : r.length < cs.length := by
  unfold expectChar at h
  split at h
  · rename_i hc
    cases h
    cases cs with
    | nil => simp at hc
    | cons a l => simp
  · cases h

theorem takeRun_length {p : Char → Bool} {cs run r : List Char}
    (h : takeRun p cs = some (run, r)) : r.length < cs.length := by
  unfold takeRun at h
  split at h
  · cases h
  · rename_i hne
    cases h
    have h1 : (cs.takeWhile p).length ≤ cs.length := (List.takeWhile_prefix _).length_le
    have h2 : 0 < (cs.takeWhile p).length := by
      cases he : cs.takeWhile p with
      | nil => rw [he] at hne; simp at hne
      | cons a l => simp [he]
    rw [List.length_drop]
    omega

theorem length_dropWhile_le (p : Char → Bool) (l : List Char) :
    (l.dropWhile p).length ≤ l.length := by
  induction l with
  | nil => simp [List.dropWhile]
  | cons c r ih =>
    rw [List.dropWhile]
    split
    · simp only [List.length_cons]
      omega
    · simp

/-! #### `_parse_summary` -/

/-- Result record of `_parse_summary`. -/
structure Summary where
  hardening_index : Option Nat
  tests_performed : Option Nat
  plugins_enabled : Option Nat
deriving DecidableEq

/-- The tail `\s*:\s*(\d+)` of the three summary patterns: greedy
whitespace (the following `:` and digits are not whitespace, so no
backtracking arises), then the greedy non-empty digit capture. -/
def numAfter (cs : List Char) : Option (List Char) :=
  match expectChar ':' (cs.dropWhile isWsC) with
  | some r2 =>
    if ((r2.dropWhile isWsC).takeWhile isDigitC).isEmpty then none
    else some ((r2.dropWhile isWsC).takeWhile isDigitC)
  | none => none

/-- Source `re.search(lit + r'\s*:\s*(\d+)', t)`, returning the digit capture. -/
def searchNum (lit t : List Char) : Option (List Char) :=
  scanOption (fun cs => (dropLit lit cs).bind numAfter) t

/-- Source `LynisParser._parse_summary`. -/
def parse_summary (t : List Char) : Summary :=
  ⟨(searchNum "Hardening index".data t).map digitsVal,
   (searchNum "Tests performed".data t).map digitsVal,
   (searchNum "Plugins enabled".data t).map digitsVal⟩

/-! #### `_parse_system_info` -/

structure SystemInfo where
  os_name : Option String
  os_version : Option String
  kernel_version : Option String
  hostname : Option String
  hardware_platform : Option String
deriving DecidableEq

/-- Source `re.search(lit + r'\s*(.+?)(?=\n|$)', t)` followed by `.strip()` of the
capture. -/
def searchField (lit t : List Char) : Option String :=
  (scanOption (fun cs => (dropLit lit cs).bind wsThenCapture) t).map
    (fun pr => (⟨pyStrip pr.1⟩ : String))

/-- Source `LynisParser._parse_system_info`. -/
def parse_system_info (t : List Char) : SystemInfo :=
  ⟨searchField "Operating system name:".data t,
   searchField "Operating system version:".data t,
   searchField "Kernel version:".data t,
   searchField "Hostname:".data t,
   searchField "Hardware platform:".data t⟩

/-! #### `_parse_security_components` -/

structure SecurityComponents where
  firewall : Bool
  intrusion_software : Bool
  malware_scanner : Bool
deriving DecidableEq

/-- Stop positions of the lazy capture in
`Software components:(.+?)(?=Files:|$)` (pattern compiled with
`re.IGNORECASE`, so the look-ahead literal is case-insensitive; without
`re.MULTILINE`, `$` holds at the end of the text or just before a final
newline). -/
def compStop (cs : List Char) : Bool :=
  (dropLitCI "files:".data cs).isSome || cs = [] || cs = ['\n']

/-- A lazy non-empty capture `(.+?)` (with `re.DOTALL`) closed by a
look-ahead: the shortest prefix of at least one character after which
`stop` holds. -/
def lazyCapStop (stop : List Char → Bool) : List Char → Option (List Char)
  | [] => none
  | c :: r => if stop r then some [c] else (lazyCapStop stop r).map (c :: ·)

/-- Matcher for the section pattern, anchored at the current position;
returns `match.group(1)`. -/
def tryCompSection (cs : List Char) : Option (List Char) :=
  (dropLitCI "software components:".data cs).bind (lazyCapStop compStop)

/-- Source `re.search(lit + r'\s+\[V\]', sec) is not None` (case-sensitive; `\s+`
needs at least one whitespace character and `[` forces the full greedy
run). -/
def searchVMark (lit sec : List Char) : Bool :=
  (scanOption
    (fun cs =>
      match dropLit lit cs with
      | some r =>
        let w := r.takeWhile isWsC
        if w.isEmpty then none
        else if (dropLit "[V]".data (r.drop w.length)).isSome then some () else none
      | none => none)
    sec).isSome

/-- Source `LynisParser._parse_security_components`. -/
def parse_security_components (t : List Char) : SecurityComponents :=
  match scanOption tryCompSection t with
  | none => ⟨false, false, false⟩
  | some sec =>
    ⟨searchVMark "Firewall".data sec,
     searchVMark "Intrusion software".data sec,
     searchVMark "Malware scanner".data sec⟩

/-! #### `_extract_warnings`

Pattern `\[WARNING\]:?\s*(.+?)(?=\n|$)` with `re.IGNORECASE`, iterated by
`finditer`.  The greedy optional colon backtracks: if taking a `:` leaves
nothing to capture, the colon itself becomes the capture's first
character.  (The method also reads a `Warnings\s*\((\d+)\):` count into a
local variable that it never uses; that dead read is not modelled.) -/

/-- The part of the warning pattern after the literal: `:?\s*(.+?)(?=\n|$)`.
The optional colon is taken greedily and given back if the rest of the
pattern then fails. -/
def warnTail (r : List Char) : Option (List Char × List Char) :=
  if r.head? = some ':' then (wsThenCapture r.tail).or (wsThenCapture r)
  else wsThenCapture r

/-- The warning matcher, anchored at the current position; returns the
capture and the remainder after the match. -/
def tryWarnAt (cs : List Char) : Option (List Char × List Char) :=
  match dropLitCI "[warning]".data cs with
  | none => none
  | some r => warnTail r

theorem warnTail_length {r cap rem : List Char}
    (h : warnTail r = some (cap, rem)) : rem.length < r.length := by
  unfold warnTail at h
  split at h
  · rename_i hc
    cases hw : wsThenCapture r.tail with
    | some pr =>
      rw [hw] at h
      simp only [Option.or] at h
      cases h
      have h1 := wsThenCapture_length hw
      have h2 : r.tail.length = r.length - 1 := List.length_tail r
      have h3 : 0 < r.length := by
        cases r with
        | nil => simp at hc
        | cons a l => simp
      omega
    | none =>
      rw [hw] at h
      simp only [Option.or] at h
      exact wsThenCapture_length h
  · exact wsThenCapture_length h

theorem tryWarnAt_length {cs cap rem : List Char}
    (h : tryWarnAt cs = some (cap, rem)) : rem.length < cs.length := by
  unfold tryWarnAt at h
  cases hd : dropLitCI "[warning]".data cs with
  | none => rw [hd] at h; cases h
  | some r =>
    rw [hd] at h
    have h' : warnTail r = some (cap, rem) := h
    have h1 := warnTail_length h'
    have hdl := dropLitCI_length hd
    omega

/-- Source `LynisParser._extract_warnings`: one `type="warning"` finding per
`finditer` match, message `.strip()`-ped. -/
def extract_warnings (t : List Char) : List Finding :=
  match t with
  | [] => []
  | c :: rest =>
    match h : tryWarnAt (c :: rest) with
    | some (cap, after) =>
      ⟨(⟨pyStrip cap⟩ : String), "warning", "", []⟩ :: extract_warnings after
    | none => extract_warnings rest
termination_by t.length
decreasing_by
  · exact tryWarnAt_length h
  · simp

/-! #### `_extract_suggestions`

Outer pattern:
`Suggestions.*?(?=Follow-up:|<80 equals signs>)` with `re.DOTALL`
and `re.IGNORECASE` — note that, unlike the components pattern, the
look-ahead has no `$` alternative, so without a terminator the section
search fails altogether.  Inner pattern (per suggestion), with `re.DOTALL`
only:
`\*\s*(.+?)\s*\[([A-Z]+-\d+)\]\s*(?:\n\s*-\s*(.+?))?(?=\n\s*\*|\Z)`.
The scanners below replay the backtracking engine's try order for this
pattern; see the module comment. -/

/-- The look-ahead `(?=\n\s*\*|\Z)`. -/
def lookNSW : List Char → Bool
  | [] => true
  | c :: r =>
    if c = '\n' then
      match r.dropWhile isWsC with
      | '*' :: _ => true
      | _ => false
    else false

/-- Source `(.+?)(?=\n\s*\*|\Z)` (with `re.DOTALL`): the shortest non-empty
capture after which the look-ahead holds; never fails on non-empty input
since `\Z` holds at the end.  Returns capture and remainder. -/
def lazyCap : List Char → Option (List Char × List Char)
  | [] => none
  | c :: r =>
    if lookNSW r then some ([c], r)
    else
      match lazyCap r with
      | some (cap, rem) => some (c :: cap, rem)
      | none => none

/-- Source `\s*(.+?)(?=\n\s*\*|\Z)`: greedy whitespace first, backtracking one
character at a time when the capture cannot take its first character. -/
def wsLazy : List Char → Option (List Char × List Char)
  | [] => none
  | c :: r =>
    if isWsC c then
      match wsLazy r with
      | some pr => some pr
      | none => lazyCap (c :: r)
    else lazyCap (c :: r)

/-- The detail group body after its leading `\n`: `\s*-\s*(.+?)` plus the
final look-ahead (the `-` is not whitespace, so the first `\s*` cannot
backtrack). -/
def tryDetail (v : List Char) : Option (List Char × List Char) :=
  match expectChar '-' (v.dropWhile isWsC) with
  | some r2 => wsLazy r2
  | none => none

/-- One backtracking stop of `\s*(?:\n\s*-\s*(.+?))?(?=\n\s*\*|\Z)`:
at a fixed amount of leading whitespace consumed, try the optional group
(which must start with `\n`), then the empty group with the look-ahead. -/
def part3Here (cs : List Char) : Option (Option (List Char) × List Char) :=
  if cs.head? = some '\n' then
    match tryDetail cs.tail with
    | some (cap, rem) => some (some cap, rem)
    | none => if lookNSW cs then some (none, cs) else none
  else if lookNSW cs then some (none, cs) else none

/-- The suffix `\s*(?:\n\s*-\s*(.+?))?(?=\n\s*\*|\Z)` of the suggestion
pattern after `\]`: greedy `\s*` tried longest first.  Returns the
optional detail capture and the remainder at the match end. -/
def part3 : List Char → Option (Option (List Char) × List Char)
  | [] => some (none, [])
  | c :: r =>
    if isWsC c then
      match part3 r with
      | some res => some res
      | none => part3Here (c :: r)
    else part3Here (c :: r)

/-- Source `\[([A-Z]+-\d+)\]`: the bracketed test id (greedy classes, each
followed by a character outside the class, so no backtracking).  Returns
`group(2)` and the remainder after `\]`. -/
def parseTag (cs : List Char) : Option (List Char × List Char) :=
  (expectChar '[' cs).bind fun r =>
    (takeRun isUpperAZ r).bind fun p1 =>
      (expectChar '-' p1.2).bind fun rb =>
        (takeRun isDigitC rb).bind fun p2 =>
          (expectChar ']' p2.2).map fun r4 => (p1.1 ++ '-' :: p2.1, r4)

/-- The pattern tail from the inter-message `\s*` on: `\s*\[TAG\]` then
`part3`. -/
def tagPart3 (cs : List Char) : Option (List Char × Option (List Char) × List Char) :=
  match parseTag (cs.dropWhile isWsC) with
  | some (tag, r2) =>
    match part3 r2 with
    | some (det, rem) => some (tag, det, rem)
    | none => none
  | none => none

/-- A successful inner match: `group(1)`, `group(2)`, optional `group(3)`,
and the remainder at the match end. -/
structure SugMatch where
  group1 : List Char
  tag : List Char
  detail : Option (List Char)
  rem : List Char
deriving DecidableEq

/-- Growing the lazy `(.+?)` of `group(1)` one character at a time
(`acc` holds the accumulated capture reversed), trying the pattern tail at
each stop. -/
def scanBody (acc : List Char) : List Char → Option SugMatch
  | [] => none
  | c :: r =>
    match tagPart3 (c :: r) with
    | some (tag, det, rem) => some ⟨acc.reverse, tag, det, rem⟩
    | none => scanBody (c :: acc) r

/-- The inner suggestion matcher anchored at the current position.  After
`\*`, the greedy `\s*` takes the whole whitespace run and `(.+?)` grows
from one character (phase worked by `scanBody`); only if that fails can
the engine shrink `\s*` by one and let the capture take the run's last
whitespace character — any deeper shrinking re-tests the same tail and
fails identically. -/
def trySugBody (u : List Char) : Option SugMatch :=
  match u.drop ((u.takeWhile isWsC).length) with
  | [] => none
  | c0 :: rest0 =>
    match scanBody [c0] rest0 with
    | some sg => some sg
    | none =>
      match (u.takeWhile isWsC).reverse with
      | [] => none
      | lastWs :: _ =>
        match tagPart3 (c0 :: rest0) with
        | some (tag, det, rem) => some ⟨[lastWs], tag, det, rem⟩
        | none => none

def trySug (cs : List Char) : Option SugMatch :=
  if cs.head? = some '*' then trySugBody cs.tail else none

theorem lazyCap_length {cs cap rem : List Char}
    (h : lazyCap cs = some (cap, rem)) : rem.length < cs.length := by
  induction cs generalizing cap with
  | nil => cases h
  | cons c r ih =>
    simp only [lazyCap] at h
    split at h
    · cases h
      simp
    · cases hl : lazyCap r with
      | some pr =>
        rw [hl] at h
        cases pr
        cases h
        have := ih hl
        simp only [List.length_cons]
        omega
      | none => rw [hl] at h; cases h

theorem wsLazy_length {cs cap rem : List Char}
    (h : wsLazy cs = some (cap, rem)) : rem.length < cs.length := by
  induction cs generalizing cap with
  | nil => cases h
  | cons c r ih =>
    simp only [wsLazy] at h
    split at h
    · cases hw : wsLazy r with
      | some pr =>
        rw [hw] at h
        cases pr
        cases h
        have := ih hw
        simp only [List.length_cons]
        omega
      | none =>
        rw [hw] at h
        exact lazyCap_length h
    · exact lazyCap_length h

theorem tryDetail_length {v cap rem : List Char}
    (h : tryDetail v = some (cap, rem)) : rem.length < v.length := by
  unfold tryDetail at h
  cases he : expectChar '-' (v.dropWhile isWsC) with
  | none => rw [he] at h; cases h
  | some r2 =>
    rw [he] at h
    have h1 := wsLazy_length (show wsLazy r2 = some (cap, rem) from h)
    have h2 := expectChar_length he
    have h3 := length_dropWhile_le isWsC v
    omega

theorem some_pair_eq {α β : Type} {a c : α} {b d : β}
    (h : (some (a, b) : Option (α × β)) = some (c, d)) : a = c ∧ b = d := by
  injection h with h'
  exact ⟨congrArg Prod.fst h', congrArg Prod.snd h'⟩

theorem part3Here_length {cs : List Char} {det : Option (List Char)} {rem : List Char}
    (h : part3Here cs = some (det, rem)) : rem.length ≤ cs.length := by
  unfold part3Here at h
  by_cases hh : cs.head? = some '\n'
  · rw [if_pos hh] at h
    cases hd : tryDetail cs.tail with
    | some pr =>
      rw [hd] at h
      obtain ⟨cap2, rm2⟩ := pr
      obtain ⟨h1, h2⟩ := some_pair_eq h
      subst h2
      have h3 := tryDetail_length hd
      have h4 : cs.tail.length ≤ cs.length := by cases cs <;> simp
      omega
    | none =>
      rw [hd] at h
      by_cases hl : lookNSW cs = true
      · rw [if_pos hl] at h
        obtain ⟨h1, h2⟩ := some_pair_eq h
        subst h2
        exact Nat.le_refl _
      · rw [if_neg hl] at h
        cases h
  · rw [if_neg hh] at h
    by_cases hl : lookNSW cs = true
    · rw [if_pos hl] at h
      obtain ⟨h1, h2⟩ := some_pair_eq h
      subst h2
      exact Nat.le_refl _
    · rw [if_neg hl] at h
      cases h

theorem part3_length {u : List Char} {det : Option (List Char)} {rem : List Char}
    (h : part3 u = some (det, rem)) : rem.length ≤ u.length := by
  induction u with
  | nil =>
    obtain ⟨h1, h2⟩ := some_pair_eq h
    subst h2
    exact Nat.le_refl _
  | cons c r ih =>
    simp only [part3] at h
    split at h
    · cases hp : part3 r with
      | some res =>
        rw [hp] at h
        cases res
        cases h
        have := ih hp
        simp only [List.length_cons]
        omega
      | none =>
        rw [hp] at h
        exact part3Here_length h
    · exact part3Here_length h

theorem tagPart3_length {cs tag : List Char} {det : Option (List Char)} {rem : List Char}
    (h : tagPart3 cs = some (tag, det, rem)) : rem.length < cs.length := by
  unfold tagPart3 at h
  cases hp : parseTag (cs.dropWhile isWsC) with
  | none => rw [hp] at h; cases h
  | some pr =>
    rw [hp] at h
    obtain ⟨tg, r2⟩ := pr
    have h' : (match part3 r2 with
        | some (det, rem) => some (tg, det, rem)
        | none => none) = some (tag, det, rem) := h
    cases h3 : part3 r2 with
    | none =>
      rw [h3] at h'
      cases h'
    | some dr =>
      rw [h3] at h'
      obtain ⟨d2, rm2⟩ := dr
      cases h'
      -- parseTag consumed at least the brackets: its remainder is shorter
      -- than the whitespace-stripped input.
      have h4 : r2.length < (cs.dropWhile isWsC).length := by
        unfold parseTag at hp
        rw [Option.bind_eq_some] at hp
        obtain ⟨ra, e1, hp⟩ := hp
        rw [Option.bind_eq_some] at hp
        obtain ⟨⟨ls, r1⟩, e2, hp⟩ := hp
        rw [Option.bind_eq_some] at hp
        obtain ⟨rb, e3, hp⟩ := hp
        rw [Option.bind_eq_some] at hp
        obtain ⟨⟨ds, r3⟩, e4, hp⟩ := hp
        rw [Option.map_eq_some'] at hp
        obtain ⟨r4, e5, hp⟩ := hp
        have hr : r4 = r2 := congrArg Prod.snd hp
        subst hr
        have l1 := expectChar_length e1
        have l2 := takeRun_length e2
        have l3 := expectChar_length e3
        have l4 := takeRun_length e4
        have l5 := expectChar_length e5
        simp only at l2 l3 l4 l5
        omega
      have h5 := part3_length h3
      have h6 := length_dropWhile_le isWsC cs
      omega

theorem scanBody_length {acc cs : List Char} {sg : SugMatch}
    (h : scanBody acc cs = some sg) : sg.rem.length < cs.length := by
  induction cs generalizing acc with
  | nil => cases h
  | cons c r ih =>
    simp only [scanBody] at h
    cases ht : tagPart3 (c :: r) with
    | some tr =>
      rw [ht] at h
      obtain ⟨tg, d2, rm⟩ := tr
      cases h
      exact tagPart3_length ht
    | none =>
      rw [ht] at h
      have := ih h
      simp only [List.length_cons]
      omega

theorem trySugBody_length {u : List Char} {sg : SugMatch}
    (h : trySugBody u = some sg) : sg.rem.length < u.length := by
  unfold trySugBody at h
  cases hd : u.drop ((u.takeWhile isWsC).length) with
  | nil => rw [hd] at h; cases h
  | cons c0 rest0 =>
    rw [hd] at h
    have h' : (match scanBody [c0] rest0 with
        | some sg => some sg
        | none =>
          match (u.takeWhile isWsC).reverse with
          | [] => none
          | lastWs :: _ =>
            match tagPart3 (c0 :: rest0) with
            | some (tag, det, rem) =>
              some ⟨[lastWs], tag, det, rem⟩
            | none => none) = some sg := h
    have hlen : rest0.length + 1 ≤ u.length := by
      have hle : (u.drop ((u.takeWhile isWsC).length)).length ≤ u.length := by
        rw [List.length_drop]; omega
      rw [hd] at hle
      simpa using hle
    cases hs : scanBody [c0] rest0 with
    | some sg2 =>
      rw [hs] at h'
      cases h'
      have := scanBody_length hs
      omega
    | none =>
      rw [hs] at h'
      cases hr : (u.takeWhile isWsC).reverse with
      | nil => rw [hr] at h'; cases h'
      | cons lastWs l2 =>
        rw [hr] at h'
        cases ht : tagPart3 (c0 :: rest0) with
        | none => rw [ht] at h'; cases h'
        | some tr =>
          rw [ht] at h'
          obtain ⟨tg, d2, rm⟩ := tr
          cases h'
          have := tagPart3_length ht
          simp only [List.length_cons] at this
          show rm.length < u.length
          omega

theorem trySug_length {cs : List Char} {sg : SugMatch}
    (h : trySug cs = some sg) : sg.rem.length < cs.length := by
  unfold trySug at h
  split at h
  · rename_i hc
    have h1 := trySugBody_length h
    have h2 : 0 < cs.length := by
      cases cs with
      | nil => simp at hc
      | cons a l => simp
    have h3 : cs.tail.length = cs.length - 1 := List.length_tail cs
    omega
  · cases h

/-- Build the suggestion dict from a match: `group(1).strip()` as message,
`group(2).strip()` as test id, and — when `group(3)` matched — its
stripped text split on newlines, each line stripped, blank lines dropped,
first `MAX_SUGGESTION_DETAILS` kept. -/
def mkSuggestion (sg : SugMatch) : Finding :=
  { message := (⟨pyStrip sg.group1⟩ : String)
    ftype := ""
    test_id := (⟨pyStrip sg.tag⟩ : String)
    details :=
      match sg.detail with
      | none => []
      | some d =>
        (((splitLines (pyStrip d)).map (fun l => (⟨pyStrip l⟩ : String))).filter
          (fun s => s ≠ "")).take MAX_SUGGESTION_DETAILS }

/-- The `finditer` loop of `_extract_suggestions` over the section text. -/
def extractSugsIn (sec : List Char) : List Finding :=
  match sec with
  | [] => []
  | c :: rest =>
    match h : trySug (c :: rest) with
    | some sg => mkSuggestion sg :: extractSugsIn sg.rem
    | none => extractSugsIn rest
termination_by sec.length
decreasing_by
  · exact trySug_length h
  · simp

/-- Stop positions of the lazy `.*?` in the section pattern: before
`Follow-up:` (case-insensitive) or before the 80-equals separator bar.
There is no `$` alternative. -/
def stopSug (cs : List Char) : Bool :=
  (dropLitCI "follow-up:".data cs).isSome ||
  (dropLit (List.replicate 80 '=') cs).isSome

/-- Source `.*?(?=Follow-up:|<bar>)`: the shortest (possibly empty) consumed
prefix after which a stop literal starts; fails at the end of the text. -/
def lazyUntil (cs : List Char) : Option (List Char) :=
  if stopSug cs then some []
  else
    match cs with
    | [] => none
    | c :: r => (lazyUntil r).map (c :: ·)

/-- The section matcher anchored at the current position; returns
`match.group(0)` (the literal as it appears in the text plus the lazily
consumed span). -/
def trySugSection (cs : List Char) : Option (List Char) :=
  match dropLitCI "suggestions".data cs with
  | none => none
  | some r => (lazyUntil r).map (fun consumed => cs.take 11 ++ consumed)

/-- Source `LynisParser._extract_suggestions`. -/
def extract_suggestions (t : List Char) : List Finding :=
  match scanOption trySugSection t with
  | none => []
  | some sec => extractSugsIn sec

/-! #### `parse`, `format_for_display`, `_get_score_status` -/

structure ParsedReport where
  summary : Summary
  warnings : List Finding
  suggestions : List Finding
  system_info : SystemInfo
  security_components : SecurityComponents
deriving DecidableEq

/-- Source `LynisParser.parse`. -/
def parse (raw : String) : ParsedReport :=
  ⟨parse_summary (stripAnsi raw.data),
   extract_warnings (stripAnsi raw.data),
   extract_suggestions (stripAnsi raw.data),
   parse_system_info (stripAnsi raw.data),
   parse_security_components (stripAnsi raw.data)⟩

/-- Source `LynisParser._get_score_status`. -/
def get_score_status (score : Nat) : String :=
  if score ≥ 80 then "excellent"
  else if score ≥ 60 then "good"
  else if score ≥ 40 then "fair"
  else "poor"

structure ScoreView where
  hardening_index : Option Nat
  display : String
  status : String
deriving DecidableEq

structure StatsView where
  tests_performed : Option Nat
  warnings_count : Nat
  suggestions_count : Nat
  plugins_enabled : Option Nat
deriving DecidableEq

structure FindingsView where
  warnings : List Finding
  suggestions : List Finding
deriving DecidableEq

structure DisplayData where
  score : ScoreView
  statistics : StatsView
  system_info : SystemInfo
  security_components : SecurityComponents
  findings : FindingsView
deriving DecidableEq

theorem extract_warnings_nil : extract_warnings [] = [] := by
  rw [extract_warnings]

theorem extract_warnings_cons_some {c : Char} {rest cap after : List Char}
    (h : tryWarnAt (c :: rest) = some (cap, after)) :
    extract_warnings (c :: rest) =
      ⟨(⟨pyStrip cap⟩ : String), "warning", "", []⟩ :: extract_warnings after := by
  conv_lhs => rw [extract_warnings]
  split
  · rename_i cap2 after2 heq
    rw [h] at heq
    obtain ⟨h1, h2⟩ := some_pair_eq heq
    rw [h1, h2]
  · rename_i heq
    rw [h] at heq
    cases heq

theorem extract_warnings_cons_none {c : Char} {rest : List Char}
    (h : tryWarnAt (c :: rest) = none) :
    extract_warnings (c :: rest) = extract_warnings rest := by
  conv_lhs => rw [extract_warnings]
  split
  · rename_i cap2 after2 heq
    rw [h] at heq
    cases heq
  · rfl

theorem extractSugsIn_nil : extractSugsIn [] = [] := by
  rw [extractSugsIn]

theorem extractSugsIn_cons_some {c : Char} {rest : List Char} {sg : SugMatch}
    (h : trySug (c :: rest) = some sg) :
    extractSugsIn (c :: rest) = mkSuggestion sg :: extractSugsIn sg.rem := by
  conv_lhs => rw [extractSugsIn]
  split
  · rename_i sg2 heq
    rw [h] at heq
    cases heq
    rfl
  · rename_i heq
    rw [h] at heq
    cases heq

theorem extractSugsIn_cons_none {c : Char} {rest : List Char}
    (h : trySug (c :: rest) = none) :
    extractSugsIn (c :: rest) = extractSugsIn rest := by
  conv_lhs => rw [extractSugsIn]
  split
  · rename_i sg2 heq
    rw [h] at heq
    cases heq
  · rfl

/-- Python `str()` of an int-or-None value, as interpolated by the
f-string `f"{...}/100"`. -/
def pyStrOptNat : Option Nat → String
  | none => "None"
  | some n => Nat.repr n

/-- Source `_get_score_status` as actually invoked by
`format_for_display`: `_parse_summary` always stores the key
`'hardening_index'` (with value `None` when the line was not found), so
`summary.get('hardening_index', 0)` returns the stored value, never the
`0` default — and `None >= 80` raises `TypeError`. -/
def get_score_statusE : Option Nat → Except String String
  | some n => .ok (get_score_status n)
  | none =>
    .error "TypeError: '>=' not supported between instances of 'NoneType' and 'int'"

/-- Source `LynisParser.format_for_display`.  The summary keys are always
present in `parse` output, so each `summary.get(key, 0)` yields the stored
optional value; the `'status'` entry of the score dict is the one
computation that can raise, and it does so before the rest of the bundle
is built, so an error yields no bundle at all. -/
def format_for_display (p : ParsedReport) : Except String DisplayData :=
  match get_score_statusE p.summary.hardening_index with
  | .error e => .error e
  | .ok st =>
    .ok { score :=
            { hardening_index := p.summary.hardening_index
              display := pyStrOptNat p.summary.hardening_index ++ "/100"
              status := st }
          statistics :=
            { tests_performed := p.summary.tests_performed
              warnings_count := p.warnings.length
              suggestions_count := p.suggestions.length
              plugins_enabled := p.summary.plugins_enabled }
          system_info := p.system_info
          security_components := p.security_components
          findings :=
            { warnings := p.warnings.take MAX_WARNINGS_DISPLAY
              suggestions := p.suggestions.take MAX_SUGGESTIONS_DISPLAY } }

/-- On a report whose hardening index is present, `format_for_display`
succeeds with the fully determined bundle. -/
theorem format_for_display_some {p : ParsedReport} {n : Nat}
    (hn : p.summary.hardening_index = some n) :
    format_for_display p = .ok
      { score :=
          { hardening_index := some n
            display := pyStrOptNat (some n) ++ "/100"
            status := get_score_status n }
        statistics :=
          { tests_performed := p.summary.tests_performed
            warnings_count := p.warnings.length
            suggestions_count := p.suggestions.length
            plugins_enabled := p.summary.plugins_enabled }
        system_info := p.system_info
        security_components := p.security_components
        findings :=
          { warnings := p.warnings.take MAX_WARNINGS_DISPLAY
            suggestions := p.suggestions.take MAX_SUGGESTIONS_DISPLAY } } := by
  unfold format_for_display get_score_statusE
  rw [hn]

/-! ### Claim C4 — total absence on empty input -/

/-- C4: `parse("")` yields all summary fields absent, empty warning and
suggestion lists, all five system-info fields absent, and all three
security-component flags `false`. -/
theorem c4_parse_empty :
    parse "" = ⟨⟨none, none, none⟩, [], [],
                ⟨none, none, none, none, none⟩, ⟨false, false, false⟩⟩ := by
  have h0 : stripAnsi "".data = [] := by rw [stripAnsi]
  unfold parse
  rw [h0, extract_warnings_nil]
  rfl

/-! ### Claim C5 — `parse` is total and never raises -/

/-- The only fallible primitive in `parse` is `int()` on the three summary
captures; `parseE` re-runs the pipeline with that fallibility made
explicit. -/
def fieldE (o : Option (List Char)) : Except String (Option Nat) :=
  match o with
  | none => .ok none
  | some ds => (pyInt ds).map some

/-- Source `_parse_summary` with explicit `int()` errors. -/
def parse_summaryE (t : List Char) : Except String Summary :=
  match fieldE (searchNum "Hardening index".data t),
        fieldE (searchNum "Tests performed".data t),
        fieldE (searchNum "Plugins enabled".data t) with
  | .ok a, .ok b, .ok c => .ok ⟨a, b, c⟩
  | .error e, _, _ => .error e
  | .ok _, .error e, _ => .error e
  | .ok _, .ok _, .error e => .error e

/-- Source `parse` with the `int()` conversions made fallible. -/
def parseE (raw : String) : Except String ParsedReport :=
  match parse_summaryE (stripAnsi raw.data) with
  | .error e => .error e
  | .ok s =>
    .ok ⟨s, extract_warnings (stripAnsi raw.data),
         extract_suggestions (stripAnsi raw.data),
         parse_system_info (stripAnsi raw.data),
         parse_security_components (stripAnsi raw.data)⟩

theorem all_takeWhile (p : Char → Bool) (l : List Char) :
    (l.takeWhile p).all p = true := by
  induction l with
  | nil => rfl
  | cons c r ih =>
    rw [List.takeWhile]
    cases hp : p c with
    | true => simp [hp, ih]
    | false => rfl

theorem scanOption_some {α : Type} {tryAt : List Char → Option α} {t : List Char} {a : α}
    (h : scanOption tryAt t = some a) : ∃ cs, tryAt cs = some a := by
  induction t with
  | nil => exact ⟨[], h⟩
  | cons c r ih =>
    simp only [scanOption] at h
    cases ht : tryAt (c :: r) with
    | some b =>
      rw [ht] at h
      cases h
      exact ⟨c :: r, ht⟩
    | none =>
      rw [ht] at h
      exact ih h

theorem numAfter_digits {cs ds : List Char} (h : numAfter cs = some ds) :
    ds ≠ [] ∧ ds.all isDigitC = true := by
  unfold numAfter at h
  cases he : expectChar ':' (cs.dropWhile isWsC) with
  | none => rw [he] at h; cases h
  | some r2 =>
    rw [he] at h
    have h' : (if ((r2.dropWhile isWsC).takeWhile isDigitC).isEmpty then none
        else some ((r2.dropWhile isWsC).takeWhile isDigitC)) = some ds := h
    split at h'
    · cases h'
    · rename_i hne
      cases h'
      refine ⟨?_, all_takeWhile _ _⟩
      intro hc
      rw [hc] at hne
      simp at hne

theorem searchNum_digits {lit t ds : List Char} (h : searchNum lit t = some ds) :
    ds ≠ [] ∧ ds.all isDigitC = true := by
  obtain ⟨cs, hcs⟩ := scanOption_some h
  rw [Option.bind_eq_some] at hcs
  obtain ⟨r, _, hnum⟩ := hcs
  exact numAfter_digits hnum

theorem fieldE_searchNum (lit t : List Char) :
    fieldE (searchNum lit t) = .ok ((searchNum lit t).map digitsVal) := by
  cases h : searchNum lit t with
  | none => rfl
  | some ds =>
    obtain ⟨h1, h2⟩ := searchNum_digits h
    simp only [fieldE, Option.map, pyInt, if_pos (And.intro h1 h2)]
    rfl

theorem parse_summaryE_ok (t : List Char) :
    parse_summaryE t = .ok (parse_summary t) := by
  unfold parse_summaryE parse_summary
  rw [fieldE_searchNum, fieldE_searchNum, fieldE_searchNum]

/-- C5: on every input (malformed, empty, or arbitrary), `parse` completes
without an error — the only fallible primitive it runs, `int()`, is applied
exclusively to non-empty all-digit captures, and each of the five
sub-extractions is a total function of the stripped text, degrading to its
absent value independently of the other four. -/
theorem c5_parse_never_raises (raw : String) : parseE raw = .ok (parse raw) := by
  unfold parseE parse
  rw [parse_summaryE_ok]

/-! ### Claim C6 — score status boundaries -/

/-- C6: `_get_score_status` maps scores by inclusive lower bounds:
`≥80 → excellent`, `60–79 → good`, `40–59 → fair`, `<40 → poor`. -/
theorem c6_score_status (score : Nat) :
    (80 ≤ score → get_score_status score = "excellent")
    ∧ (60 ≤ score → score < 80 → get_score_status score = "good")
    ∧ (40 ≤ score → score < 60 → get_score_status score = "fair")
    ∧ (score < 40 → get_score_status score = "poor") := by
  unfold get_score_status
  refine ⟨fun h => ?_, fun h1 h2 => ?_, fun h1 h2 => ?_, fun h => ?_⟩
  · rw [if_pos h]
  · rw [if_neg (by omega), if_pos h1]
  · rw [if_neg (by omega), if_neg (by omega), if_pos h1]
  · rw [if_neg (by omega), if_neg (by omega), if_neg (by omega)]

/-- C6 (witness): the seven sample points of the claim. -/
theorem c6_score_status_witness :
    get_score_status 80 = "excellent" ∧ get_score_status 79 = "good"
    ∧ get_score_status 60 = "good" ∧ get_score_status 59 = "fair"
    ∧ get_score_status 40 = "fair" ∧ get_score_status 39 = "poor"
    ∧ get_score_status 0 = "poor" :=
  ⟨(c6_score_status 80).1 (by omega),
   (c6_score_status 79).2.1 (by omega) (by omega),
   (c6_score_status 60).2.1 (by omega) (by omega),
   (c6_score_status 59).2.2.1 (by omega) (by omega),
   (c6_score_status 40).2.2.1 (by omega) (by omega),
   (c6_score_status 39).2.2.2 (by omega),
   (c6_score_status 0).2.2.2 (by omega)⟩

/-! ### Claim C7 — display caps -/

/-- C7 (counterexample): the claim promises a findings bundle for *every*
parsed report, but `parse("")` stores `None` as its hardening index, and
`format_for_display` then evaluates `None >= 80` inside
`_get_score_status` and raises `TypeError` — no bundle is returned. -/
theorem c7_display_caps_counterexample :
    format_for_display (parse "") =
      .error "TypeError: '>=' not supported between instances of 'NoneType' and 'int'" := by
  have h0 : stripAnsi "".data = [] := by rw [stripAnsi]
  have hp : parse "" = ⟨⟨none, none, none⟩, [], [],
      ⟨none, none, none, none, none⟩, ⟨false, false, false⟩⟩ := by
    unfold parse
    rw [h0, extract_warnings_nil]
    rfl
  rw [hp]
  rfl

/-- C7 (amended): for every parsed report whose hardening index is
present, `format_for_display` returns a findings bundle with at most 10
warnings and at most 20 suggestions — exactly the cap when the input list
is longer, the full list when it is not.  (When the hardening index is
absent, `format_for_display` raises `TypeError` and returns no bundle —
see the counterexample.) -/
theorem c7_display_caps (p : ParsedReport) (n : Nat)
    (hn : p.summary.hardening_index = some n) :
    ((format_for_display p).map (fun d => d.findings.warnings) =
        .ok (p.warnings.take 10))
    ∧ ((format_for_display p).map (fun d => d.findings.suggestions) =
        .ok (p.suggestions.take 20))
    ∧ (p.warnings.take 10).length ≤ 10
    ∧ (10 < p.warnings.length → (p.warnings.take 10).length = 10)
    ∧ (p.warnings.length ≤ 10 → p.warnings.take 10 = p.warnings)
    ∧ (p.suggestions.take 20).length ≤ 20
    ∧ (20 < p.suggestions.length → (p.suggestions.take 20).length = 20)
    ∧ (p.suggestions.length ≤ 20 → p.suggestions.take 20 = p.suggestions) := by
  refine ⟨?_, ?_, ?_, fun h => ?_, fun h => ?_, ?_, fun h => ?_, fun h => ?_⟩
  · rw [format_for_display_some hn]
    rfl
  · rw [format_for_display_some hn]
    rfl
  · rw [List.length_take]
    omega
  · rw [List.length_take]
    omega
  · exact List.take_of_length_le h
  · rw [List.length_take]
    omega
  · rw [List.length_take]
    omega
  · exact List.take_of_length_le h

/-! ### Claim C9 — warning extraction, line by line

The claim says the extraction yields one finding per line *beginning* with
a `[WARNING]` marker and for no other line.  `spec_warnings` below is that
claim-side description.  The code's `finditer`, however, matches the
marker anywhere in a line (and a marker left dangling at the end of a line
captures from the next line), so the two disagree — see the
counterexample.  The amended theorem recovers the per-line description on
texts whose marker occurrences are all line-initial and well-formed. -/

/-- Case-insensitive substring occurrence test (scan of `dropLitCI`). -/
def containsCI (pat : List Char) : List Char → Bool
  | [] => (dropLitCI pat []).isSome
  | c :: r => (dropLitCI pat (c :: r)).isSome || containsCI pat r

/-- The claim's reading of one line: a Finding iff the line begins with the
(case-insensitive) marker, with message = text after the marker, trimmed. -/
def specWarnLine (ℓ : List Char) : Option Finding :=
  if (dropLitCI "[warning]".data ℓ).isSome then
    some ⟨(⟨pyStrip (ℓ.drop 9)⟩ : String), "warning", "", []⟩
  else none

/-- The claim's reading of warning extraction: per line of the text. -/
def spec_warnings (t : List Char) : List Finding :=
  (splitLines t).filterMap specWarnLine

/-- A line on which the code and the claim agree: either it starts with
the marker and what follows has a non-whitespace character on the same
line and no directly attached colon, or it contains no marker at all. -/
def goodWarnLine (ℓ : List Char) : Bool :=
  match dropLitCI "[warning]".data ℓ with
  | some rest => rest.any (fun c => !(isWsC c)) && !(rest.head? == some ':')
  | none => !(containsCI "[warning]".data ℓ)

theorem dropLitCI_drop {p cs r : List Char} (h : dropLitCI p cs = some r) :
    r = cs.drop p.length := by
  induction p generalizing cs with
  | nil => cases h; rfl
  | cons x xs ih =>
    match cs with
    | [] => cases h
    | c :: cs' =>
      simp only [dropLitCI] at h
      split at h
      · simpa using ih h
      · cases h

theorem dropLitCI_append {p ℓ rest : List Char} (t : List Char)
    (h : dropLitCI p ℓ = some rest) :
    dropLitCI p (ℓ ++ t) = some (rest ++ t) := by
  induction p generalizing ℓ with
  | nil => cases h; rfl
  | cons x xs ih =>
    match ℓ with
    | [] => cases h
    | c :: ℓ' =>
      simp only [dropLitCI] at h
      simp only [List.cons_append, dropLitCI]
      split at h
      · rename_i hc
        rw [if_pos hc]
        exact ih h
      · cases h

theorem dropLitCI_newline :
    ∀ (p : List Char), '\n' ∉ p → ∀ (s t : List Char), (∀ c ∈ s, c ≠ '\n') →
      (t = [] ∨ t.head? = some '\n') →
      (dropLitCI p (s ++ t)).isSome = true → (dropLitCI p s).isSome = true := by
  intro p
  induction p with
  | nil => intro _ s t _ _ _; simp [dropLitCI]
  | cons x xs ih =>
    intro hp s t hs ht h
    match s with
    | [] =>
      exfalso
      rcases ht with rfl | hh
      · simp [dropLitCI] at h
      · match t with
        | [] => simp at hh
        | c :: t' =>
          have hc : c = '\n' := by simpa using hh
          subst hc
          simp only [List.nil_append, dropLitCI] at h
          rw [if_neg ?_] at h
          · simp at h
          · intro he
            apply hp
            have : ('\n').toLower = '\n' := rfl
            rw [this] at he
            rw [he]
            exact List.mem_cons_self x xs
    | c :: s' =>
      simp only [List.cons_append, dropLitCI] at h ⊢
      split at h
      · rename_i hc
        rw [if_pos hc]
        exact ih (fun hm => hp (List.mem_cons_of_mem x hm)) s' t
          (fun d hd => hs d (List.mem_cons_of_mem c hd)) ht h
      · simp at h

theorem takeWhile_append_all {p : Char → Bool} {u : List Char} (t : List Char)
    (h : ∀ c ∈ u, p c = true) : (u ++ t).takeWhile p = u ++ t.takeWhile p := by
  induction u with
  | nil => rfl
  | cons c u' ih =>
    simp only [List.cons_append, List.takeWhile]
    rw [h c (List.mem_cons_self c u')]
    show c :: (u' ++ t).takeWhile p = c :: (u' ++ t.takeWhile p)
    rw [ih (fun d hd => h d (List.mem_cons_of_mem c hd))]

theorem dropWhile_dropWhile (p : Char → Bool) (l : List Char) :
    (l.dropWhile p).dropWhile p = l.dropWhile p := by
  induction l with
  | nil => rfl
  | cons c r ih =>
    rw [List.dropWhile]
    cases hp : p c with
    | true => simpa [hp] using ih
    | false => simp [List.dropWhile, hp]

theorem pyStrip_dropWhile (l : List Char) :
    pyStrip (l.dropWhile isWsC) = pyStrip l := by
  unfold pyStrip
  rw [dropWhile_dropWhile]

/-- On a whitespace-prefixed span followed (beyond a line break or the end)
by nothing capturable, the capture is the line's trimmed-left remainder. -/
theorem wsThenCapture_clean :
    ∀ (u t : List Char), u.any (fun c => !(isWsC c)) = true →
      (∀ c ∈ u, c ≠ '\n') → (t = [] ∨ t.head? = some '\n') →
      wsThenCapture (u ++ t) = some (u.dropWhile isWsC, t) := by
  intro u
  induction u with
  | nil => intro t h _ _; simp at h
  | cons c u' ih =>
    intro t hany hnl ht
    have htw0 : t.takeWhile (fun x => x ≠ '\n') = [] := by
      rcases ht with rfl | hh
      · rfl
      · match t with
        | [] => rfl
        | d :: t' =>
          have hd : d = '\n' := by simpa using hh
          subst hd
          simp [List.takeWhile]
    cases hw : isWsC c with
    | true =>
      have hany' : u'.any (fun x => !(isWsC x)) = true := by
        simp only [List.any_cons, hw] at hany
        simpa using hany
      have hrec := ih t hany' (fun d hd => hnl d (List.mem_cons_of_mem c hd)) ht
      simp only [List.cons_append, wsThenCapture, List.append_eq]
      rw [if_pos hw, hrec]
      show some (u'.dropWhile isWsC, t) = some ((c :: u').dropWhile isWsC, t)
      rw [List.dropWhile_cons_of_pos (by simpa using hw)]
    | false =>
      simp only [List.cons_append, wsThenCapture, List.append_eq]
      rw [if_neg (by simp [hw])]
      unfold captureLine
      have hcap : ((c :: (u' ++ t)).takeWhile (fun x => x ≠ '\n')) = c :: u' := by
        have hall : ∀ x ∈ c :: u', (fun x => decide (x ≠ '\n')) x = true := by
          intro x hx
          simpa using hnl x hx
        calc (c :: (u' ++ t)).takeWhile (fun x => x ≠ '\n')
            = ((c :: u') ++ t).takeWhile (fun x => x ≠ '\n') := rfl
          _ = (c :: u') ++ t.takeWhile (fun x => x ≠ '\n') := takeWhile_append_all t hall
          _ = c :: u' := by rw [htw0, List.append_nil]
      rw [hcap]
      rw [if_neg (by simp)]
      show some (c :: u', (c :: (u' ++ t)).drop (c :: u').length) =
        some ((c :: u').dropWhile isWsC, t)
      rw [show c :: (u' ++ t) = (c :: u') ++ t from rfl, List.drop_left]
      rw [List.dropWhile_cons_of_neg (by simp [hw])]

/-- The scanner walks over any newline-free span with no marker occurrence
without producing a match. -/
theorem extract_warnings_skip :
    ∀ (s t : List Char), (∀ c ∈ s, c ≠ '\n') →
      containsCI "[warning]".data s = false →
      (t = [] ∨ t.head? = some '\n') →
      extract_warnings (s ++ t) = extract_warnings t := by
  intro s
  induction s with
  | nil => intro t _ _ _; rw [List.nil_append]
  | cons c s' ih =>
    intro t hs hcc ht
    have hnone : tryWarnAt (c :: (s' ++ t)) = none := by
      unfold tryWarnAt
      cases hd : dropLitCI "[warning]".data (c :: (s' ++ t)) with
      | none => rfl
      | some r =>
        exfalso
        have h1 : (dropLitCI "[warning]".data (c :: s')).isSome = true := by
          apply dropLitCI_newline "[warning]".data (by decide) (c :: s') t hs ht
          rw [show (c :: s') ++ t = c :: (s' ++ t) from rfl, hd]
          rfl
        have h2 : containsCI "[warning]".data (c :: s') = true := by
          simp only [containsCI, h1, Bool.true_or]
        rw [h2] at hcc
        cases hcc
    rw [show (c :: s') ++ t = c :: (s' ++ t) from rfl,
        extract_warnings_cons_none hnone]
    exact ih t (fun d hd => hs d (List.mem_cons_of_mem c hd))
      (by simp only [containsCI, Bool.or_eq_false_iff] at hcc; exact hcc.2) ht

/-- A newline is skipped without a match. -/
theorem extract_warnings_newline (u : List Char) :
    extract_warnings ('\n' :: u) = extract_warnings u := by
  apply extract_warnings_cons_none
  unfold tryWarnAt
  have hd : dropLitCI "[warning]".data ('\n' :: u) = none := by
    show (if ('\n').toLower = '[' then dropLitCI "warning]".data u else none) = none
    rw [if_neg (by decide)]
  rw [hd]

/-- On a well-formed marker-initial line the matcher succeeds, capturing
exactly to the end of the line. -/
theorem tryWarnAt_marker {ℓ rest : List Char} (t : List Char)
    (hd : dropLitCI "[warning]".data ℓ = some rest)
    (hany : rest.any (fun c => !(isWsC c)) = true)
    (hcol : rest.head? ≠ some ':')
    (hnl : ∀ c ∈ ℓ, c ≠ '\n')
    (ht : t = [] ∨ t.head? = some '\n') :
    tryWarnAt (ℓ ++ t) = some (rest.dropWhile isWsC, t) := by
  unfold tryWarnAt
  rw [dropLitCI_append t hd]
  show warnTail (rest ++ t) = _
  have hne : rest ≠ [] := by
    intro he
    rw [he] at hany
    simp at hany
  have hh : (rest ++ t).head? = rest.head? := by
    cases rest with
    | nil => exact absurd rfl hne
    | cons a l => rfl
  unfold warnTail
  rw [if_neg (by rw [hh]; exact hcol)]
  apply wsThenCapture_clean rest t hany ?_ ht
  intro c hc
  apply hnl
  have hrest : rest = ℓ.drop 9 := dropLitCI_drop hd
  rw [hrest] at hc
  exact List.mem_of_mem_drop hc

/-- One good line contributes exactly its claim-side finding. -/
theorem warn_line_step (ℓ t : List Char)
    (hnl : ∀ c ∈ ℓ, c ≠ '\n') (hgood : goodWarnLine ℓ = true)
    (ht : t = [] ∨ t.head? = some '\n') :
    extract_warnings (ℓ ++ t) = (specWarnLine ℓ).toList ++ extract_warnings t := by
  unfold goodWarnLine at hgood
  cases hd : dropLitCI "[warning]".data ℓ with
  | some rest =>
    rw [hd] at hgood
    have h1 : rest.any (fun c => !(isWsC c)) = true := by
      simp only [Bool.and_eq_true] at hgood
      exact hgood.1
    have h2 : rest.head? ≠ some ':' := by
      simp only [Bool.and_eq_true] at hgood
      simpa using hgood.2
    have htw := tryWarnAt_marker t hd h1 h2 hnl ht
    cases ℓ with
    | nil => simp [dropLitCI] at hd
    | cons c ℓ' =>
      rw [show (c :: ℓ') ++ t = c :: (ℓ' ++ t) from rfl] at htw ⊢
      rw [extract_warnings_cons_some htw]
      unfold specWarnLine
      rw [hd]
      have hrest : rest = (c :: ℓ').drop 9 := dropLitCI_drop hd
      simp only [Option.isSome_some, if_true, Option.toList_some, List.cons_append,
        List.nil_append]
      rw [pyStrip_dropWhile, hrest]
  | none =>
    rw [hd] at hgood
    have hcc : containsCI "[warning]".data ℓ = false := by simpa using hgood
    rw [extract_warnings_skip ℓ t hnl hcc ht]
    unfold specWarnLine
    rw [hd]
    simp

/-- C9 (amended): on texts given as lines in which every `[WARNING]`
occurrence starts a line, is not immediately followed by a colon and has a
non-whitespace character after it on its own line, warning extraction
yields exactly one `type="warning"` Finding per marker line, with message
= after-marker text trimmed, and nothing for marker-free lines.  (In
general the marker may sit mid-line and still match — see the
counterexample.) -/
theorem c9_warning_extraction (ls : List (List Char))
    (h : ∀ ℓ ∈ ls, ('\n' ∉ ℓ) ∧ goodWarnLine ℓ = true) :
    extract_warnings (joinLines ls) = ls.filterMap specWarnLine := by
  induction ls with
  | nil => exact extract_warnings_nil
  | cons ℓ ls' ih =>
    have hℓ := h ℓ (List.mem_cons_self ℓ ls')
    have hnl : ∀ c ∈ ℓ, c ≠ '\n' := fun c hc he => hℓ.1 (he ▸ hc)
    cases ls' with
    | nil =>
      show extract_warnings (joinLines [ℓ]) = _
      have hstep := warn_line_step ℓ [] hnl hℓ.2 (Or.inl rfl)
      rw [List.append_nil] at hstep
      show extract_warnings ℓ = _
      rw [hstep, extract_warnings_nil, List.append_nil, List.filterMap_cons]
      cases hs : specWarnLine ℓ
      · simp only [hs, Option.toList_none, List.filterMap_nil]
      · simp only [hs, Option.toList_some, List.filterMap_nil]
    | cons a ls'' =>
      show extract_warnings (ℓ ++ '\n' :: joinLines (a :: ls'')) = _
      rw [warn_line_step ℓ ('\n' :: joinLines (a :: ls'')) hnl hℓ.2 (Or.inr rfl)]
      rw [extract_warnings_newline]
      rw [ih (fun ℓ' hm => h ℓ' (List.mem_cons_of_mem ℓ hm))]
      conv_rhs => rw [List.filterMap_cons]
      cases hs : specWarnLine ℓ
      · simp only [hs, Option.toList_none, List.nil_append]
      · simp only [hs, Option.toList_some, List.singleton_append]

/-- C9 (witness). -/
theorem c9_warning_extraction_witness :
    extract_warnings (joinLines ["[WARNING] Firewall off".data, "all good".data]) =
      ["[WARNING] Firewall off".data, "all good".data].filterMap specWarnLine :=
  c9_warning_extraction ["[WARNING] Firewall off".data, "all good".data] (by decide)

/-- C9 (counterexample): on `"x [WARNING] bar"` no line begins with the
marker, so the claim predicts no finding; the code's `finditer` matches
the mid-line marker and produces one. -/
theorem c9_warning_extraction_counterexample :
    extract_warnings "x [WARNING] bar".data ≠
        spec_warnings "x [WARNING] bar".data
    ∧ extract_warnings "x [WARNING] bar".data =
        [⟨"bar", "warning", "", []⟩]
    ∧ spec_warnings "x [WARNING] bar".data = [] := by
  have h1 : extract_warnings "x [WARNING] bar".data = [⟨"bar", "warning", "", []⟩] := by
    rw [show ("x [WARNING] bar".data) =
      'x' :: " [WARNING] bar".data from rfl]
    rw [extract_warnings_cons_none (by decide)]
    rw [show (" [WARNING] bar".data) = ' ' :: "[WARNING] bar".data from rfl]
    rw [extract_warnings_cons_none (by decide)]
    rw [extract_warnings_cons_some
      (show tryWarnAt "[WARNING] bar".data = some ("bar".data, []) by decide)]
    rw [extract_warnings_nil]
    rfl
  refine ⟨?_, h1, by decide⟩
  rw [h1]
  decide

/-- C7 (witness). -/
theorem c7_display_caps_witness :
    ((format_for_display ⟨⟨some 50, none, none⟩, [⟨"w", "warning", "", []⟩],
        [⟨"s", "", "T-1", []⟩], ⟨none, none, none, none, none⟩,
        ⟨false, false, false⟩⟩).map (fun d => d.findings.warnings) =
      .ok [⟨"w", "warning", "", []⟩])
    ∧ ((format_for_display ⟨⟨some 50, none, none⟩, [⟨"w", "warning", "", []⟩],
        [⟨"s", "", "T-1", []⟩], ⟨none, none, none, none, none⟩,
        ⟨false, false, false⟩⟩).map (fun d => d.findings.suggestions) =
      .ok [⟨"s", "", "T-1", []⟩]) :=
  ⟨(c7_display_caps ⟨⟨some 50, none, none⟩, [⟨"w", "warning", "", []⟩],
      [⟨"s", "", "T-1", []⟩], ⟨none, none, none, none, none⟩,
      ⟨false, false, false⟩⟩ 50 rfl).1,
   (c7_display_caps ⟨⟨some 50, none, none⟩, [⟨"w", "warning", "", []⟩],
      [⟨"s", "", "T-1", []⟩], ⟨none, none, none, none, none⟩,
      ⟨false, false, false⟩⟩ 50 rfl).2.1⟩

end Audit
